import Mathlib

/-!
Verification development for the feature-engineering pipeline core described in
the repository's design specification.  The repository's notebooks only call an
external machine-learning library's `Pipeline`, `ColumnTransformer`,
`SimpleImputer`, `StandardScaler`, `OneHotEncoder` and `GridSearchCV`; the
implementations of those components are not part of the repository's sources.
Following the specification (sections 2-4: ColumnRouter, TransformChain,
Combiner, ParameterSearch) we model the pipeline core as executable Lean
definitions and prove the specification's contracts about the model.
-/

set_option synthInstance.maxSize 512

namespace FeatPipe

/-- A cell value: numeric (rational) or categorical (string).
Modelled from the spec: "each column a sequence of typed cell values
(numeric or categorical)". -/
inductive Val where
  | num (q : ℚ)
  | cat (s : String)
deriving DecidableEq, Repr

/-- A cell may hold an explicit "missing" marker, modelled as `none`. -/
abbrev Cell := Option Val

/-- A Table is an ordered collection of named columns.
Modelled from the spec: "an ordered collection of named columns, each column a
sequence of typed cell values ... with an associated row index".  The row index
is positional. -/
abbrev Table := List (String × List Cell)

/-- The uniform-row-count invariant of a Table.
Modelled from the spec: "Invariant: all columns share the same row count and
row ordering." -/
def hasRowCount (T : Table) (r : ℕ) : Prop := ∀ c ∈ T, c.2.length = r

/-- Look a column up by name in a list of named columns. -/
def findCol : Table → String → Option (List Cell)
  | [], _ => none
  | c :: cs, n => if c.1 = n then some c.2 else findCol cs n

/-- Restrict a Table to a list of column names, in the given order; fails
(`none`) when a referenced name is absent.
Modelled from the spec: ColumnRouter "produce ... the Table restricted to
those columns ... Fails if a referenced column name is absent". -/
def pickCols (T : Table) : List String → Option Table
  | [] => some []
  | n :: ns =>
    match findCol T n with
    | none => none
    | some cells => (pickCols T ns).map (fun rest => (n, cells) :: rest)

/-- The ColumnRouter: routes each named group to the Table restricted to the
group's columns.  Modelled from the spec, section 4.1. -/
def route (T : Table) : List (String × List String) → Option (List (String × Table))
  | [] => some []
  | g :: gs =>
    match pickCols T g.2 with
    | none => none
    | some Tg => (route T gs).map (fun rest => (g.1, Tg) :: rest)

/-- Imputation strategies of the notebooks' `SimpleImputer`
(`mean`, `median`, `most_frequent`, `constant`). -/
inductive Strategy where
  | mean
  | median
  | mostFrequent
  | constant
deriving DecidableEq, Repr

/-- A TransformStep, modelled from the spec ("a named operation with a
configuration (e.g., imputation strategy, fill value, indicator flag)") and
from the steps the notebooks use: `SimpleImputer(strategy, add_indicator,
fill_value)`, `StandardScaler`, `OneHotEncoder(handle_unknown='ignore')`.
The scaler is modelled as centering by the fitted per-column mean (the
division by a standard deviation is irrational and irrelevant to every
claim, which are all structural). -/
inductive Step where
  | imputer (strategy : Strategy) (addIndicator : Bool) (fillValue : Val)
  | scaler
  | encoder
deriving DecidableEq, Repr

/-- The numeric values present (non-missing) in a column. -/
def numCells (cells : List Cell) : List ℚ :=
  cells.filterMap (fun c =>
    match c with
    | some (Val.num q) => some q
    | _ => none)

/-- The values present (non-missing) in a column. -/
def presentCells (cells : List Cell) : List Val := cells.filterMap id

/-- Mean of a list of rationals (0 for the empty list). -/
def meanList (l : List ℚ) : ℚ := if l.length = 0 then 0 else l.sum / l.length

/-- Median of a list of rationals (0 for the empty list): middle element of the
sorted list, or the average of the two middle elements. -/
def medianList (l : List ℚ) : ℚ :=
  let s := List.insertionSort (fun a b => a ≤ b) l
  if l.length = 0 then 0
  else if l.length % 2 = 1 then s.getD (l.length / 2) 0
  else (s.getD (l.length / 2 - 1) 0 + s.getD (l.length / 2) 0) / 2

/-- The most frequent value of a list (first maximum wins; `dflt` when the
list is empty). -/
def modeList (vs : List Val) (dflt : Val) : Val :=
  (vs.foldl (fun acc v =>
    match acc with
    | none => some v
    | some b => if vs.count b < vs.count v then some v else some b) none).getD dflt

/-- The fill value an imputer learns for one column, per strategy.
Modelled from the spec and summary.md: mean/median of the observed numeric
values, the most frequent observed value, or the configured constant. -/
def fillFor (strat : Strategy) (fv : Val) (cells : List Cell) : Val :=
  match strat with
  | Strategy.mean => Val.num (meanList (numCells cells))
  | Strategy.median => Val.num (medianList (numCells cells))
  | Strategy.mostFrequent => modeList (presentCells cells) fv
  | Strategy.constant => fv

/-- The state a TransformStep learns at fit time: per-column fill values for
the imputer, per-column means for the scaler, per-column category lists for
the encoder.  Modelled from the spec: a step "must support being fit on a
reference dataset and then applied to new data using the fitted state". -/
inductive StepState where
  | imputerS (fills : List Val) (addIndicator : Bool)
  | scalerS (means : List ℚ)
  | encoderS (cats : List (List Val))
deriving DecidableEq, Repr

/-- The distinct values of a column in first-occurrence order. -/
def distinctVals (vs : List Val) : List Val :=
  vs.foldl (fun acc v => if v ∈ acc then acc else acc ++ [v]) []

/-- Fit one step on a Table, producing its learned state. -/
def fitStep : Step → Table → StepState
  | Step.imputer strat addInd fv, T =>
      StepState.imputerS (T.map (fun c => fillFor strat fv c.2)) addInd
  | Step.scaler, T => StepState.scalerS (T.map (fun c => meanList (numCells c.2)))
  | Step.encoder, T => StepState.encoderS (T.map (fun c => distinctVals (presentCells c.2)))

/-- The missing-data indicator columns: one 0/1 column per input column,
named with the `_NA` suffix as in summary.md. -/
def indicatorCols (T : Table) : Table :=
  T.map (fun c =>
    (c.1 ++ "_NA", c.2.map (fun cell => some (Val.num (if cell = none then 1 else 0)))))

/-- A schematic label for a value, used to name one-hot output columns. -/
def valLabel : Val → String
  | Val.num _ => "num"
  | Val.cat s => s

/-- Apply a previously learned step state to a Table (no re-fitting).
The imputer replaces missing cells by the learned fill values (positionally)
and optionally appends indicator columns; the scaler centers numeric cells by
the learned means; the encoder expands each column into one 0/1 column per
learned category (unknown values yield all zeros, as with
`handle_unknown='ignore'`). -/
def applyStep : StepState → Table → Table
  | StepState.imputerS fills addInd, T =>
      (T.zip fills).map (fun p => (p.1.1, p.1.2.map (fun cell => some (cell.getD p.2))))
        ++ (if addInd then indicatorCols T else [])
  | StepState.scalerS means, T =>
      (T.zip means).map (fun p =>
        (p.1.1, p.1.2.map (fun cell => cell.map (fun v =>
          match v with
          | Val.num q => Val.num (q - p.2)
          | x => x))))
  | StepState.encoderS cats, T =>
      (T.zip cats).flatMap (fun p =>
        p.2.map (fun cv =>
          (p.1.1 ++ "=" ++ valLabel cv,
           p.1.2.map (fun cell => some (Val.num (if cell = some cv then 1 else 0))))))

/-- Fit a TransformChain: fit step 1 on the input, transform the input to
produce step 2's input, fit step 2 on that output, and so on.
Modelled from the spec, section 4.2. -/
def fitChain : List Step → Table → List StepState
  | [], _ => []
  | s :: ss, T =>
    let st := fitStep s T
    st :: fitChain ss (applyStep st T)

/-- Apply a fitted TransformChain to new data: push the data through each
step's previously learned state, in order, without re-fitting.
Modelled from the spec, section 4.2. -/
def applyChain : List StepState → Table → Table
  | [], T => T
  | st :: sts, T => applyChain sts (applyStep st T)

/-- Fit-and-transform in one pass: the Table that came out of the last step
during fitting. -/
def fitTransformChain : List Step → Table → Table
  | [], T => T
  | s :: ss, T => fitTransformChain ss (applyStep (fitStep s T) T)

/-- A fit-then-transform run: fit the chain on the training partition, then
transform the held-out partition with the learned states.  Modelled from the
spec: steps are "fit only on training partitions ... and reused (not refit)
when transforming held-out data". -/
def evalRun (steps : List Step) (train heldOut : Table) : List StepState × Table :=
  (fitChain steps train, applyChain (fitChain steps train) heldOut)

/-- One branch of a Combiner: a named (group, TransformChain) pair.
Modelled from the spec, section 4.3. -/
structure BranchSpec where
  name : String
  chain : List Step
  cols : List String
deriving DecidableEq, Repr

/-- The output columns of one Combiner branch: restrict the Table to the
branch's column group, fit the branch's chain on the restriction, and
transform it.  `none` when a referenced column is absent. -/
def branchCols (T : Table) (b : BranchSpec) : Option Table :=
  (pickCols T b.cols).map (fun Tb => applyChain (fitChain b.chain Tb) Tb)

/-- The state one Combiner branch learns: the fitted chain of the branch,
fit on only the branch's own column group. -/
def branchState (T : Table) (b : BranchSpec) : Option (List StepState) :=
  (pickCols T b.cols).map (fun Tb => fitChain b.chain Tb)

/-- Fit/transform every branch and concatenate the branch outputs in
declaration order.  Modelled from the spec, section 4.3. -/
def combineBranches (T : Table) : List BranchSpec → Option Table
  | [] => some []
  | b :: bs =>
    match branchCols T b with
    | none => none
    | some out => (combineBranches T bs).map (fun rest => out ++ rest)

/-- The Combiner: fits each chain independently on its own column group and
concatenates each chain's output columns in the declaration order of the
groups.  Modelled from the spec, section 4.3. -/
def fitTransformCombiner (bs : List BranchSpec) (T : Table) : Option Table :=
  combineBranches T bs

/-- Cartesian product of candidate value lists.
Modelled from the spec, section 4.5: "compute the Cartesian product of all
candidate value sets".  Combinations are enumerated with the first list
varying slowest. -/
def cartProd {α : Type} : List (List α) → List (List α)
  | [] => [[]]
  | vs :: rest => vs.flatMap (fun v => (cartProd rest).map (fun c => v :: c))

/-- Per-fold cross-validation scores of one combination: one fit/score
operation per fold.  The per-fold fit-and-score itself (the estimator's
numeric work) is external to the repository, so it is an abstract argument
`scorer`.  Modelled from the spec, section 4.5. -/
def cvScores {α : Type} (k : ℕ) (scorer : List α → ℕ → ℚ) (c : List α) : List ℚ :=
  (List.range k).map (scorer c)

/-- One row of the search result table: combination index in enumeration
order, the combination, its per-fold scores and their mean.
Modelled from the spec: SearchResult "records, per ConfigurationPoint
combination, the fitted score(s) across cross-validation folds ... and rank". -/
structure SearchRow (α : Type) where
  idx : ℕ
  combo : List α
  scores : List ℚ
  mean : ℚ
deriving DecidableEq, Repr

/-- Build the result row of the combination with enumeration index `i`. -/
def mkRow {α : Type} (k : ℕ) (scorer : List α → ℕ → ℚ) (i : ℕ) (c : List α) : SearchRow α :=
  ⟨i, c, cvScores k scorer c, meanList (cvScores k scorer c)⟩

/-- The unranked result table, one row per grid combination, in enumeration
order. -/
def searchRows {α : Type} (grid : List (List α)) (k : ℕ)
    (scorer : List α → ℕ → ℚ) : List (SearchRow α) :=
  (cartProd grid).enum.map (fun p => mkRow k scorer p.1 p.2)

/-- The number of fit/score operations a search performs: one per recorded
per-fold score.  Modelled from the spec: "total fit operations = (number of
grid combinations) × k". -/
def totalFits {α : Type} (grid : List (List α)) (k : ℕ)
    (scorer : List α → ℕ → ℚ) : ℕ :=
  ((cartProd grid).map (fun c => (cvScores k scorer c).length)).sum

/-- The ranking order of result rows: mean score descending, ties broken by
combination enumeration order (stable).  Modelled from the spec: "rank by
mean score descending (ties broken by combination enumeration order, i.e.,
stable sort)". -/
def rowLE {α : Type} (a b : SearchRow α) : Prop :=
  b.mean < a.mean ∨ (a.mean = b.mean ∧ a.idx ≤ b.idx)

instance {α : Type} : DecidableRel (@rowLE α) := fun a b =>
  inferInstanceAs (Decidable (b.mean < a.mean ∨ (a.mean = b.mean ∧ a.idx ≤ b.idx)))

instance {α : Type} : IsTotal (SearchRow α) rowLE :=
  ⟨fun a b => by
    rcases lt_trichotomy a.mean b.mean with h | h | h
    · exact Or.inr (Or.inl h)
    · rcases Nat.le_total a.idx b.idx with hi | hi
      · exact Or.inl (Or.inr ⟨h, hi⟩)
      · exact Or.inr (Or.inr ⟨h.symm, hi⟩)
    · exact Or.inl (Or.inl h)⟩

instance {α : Type} : IsTrans (SearchRow α) rowLE :=
  ⟨fun a b c hab hbc => by
    rcases hab with hab | ⟨hab, hab'⟩
    · rcases hbc with hbc | ⟨hbc, _⟩
      · exact Or.inl (hbc.trans hab)
      · exact Or.inl (hbc ▸ hab)
    · rcases hbc with hbc | ⟨hbc, hbc'⟩
      · exact Or.inl (hab ▸ hbc)
      · exact Or.inr ⟨hab.trans hbc, hab'.trans hbc'⟩⟩

/-- The ranked result table: the result rows sorted by mean score descending,
ties broken by enumeration order. -/
def rankedRows {α : Type} (grid : List (List α)) (k : ℕ)
    (scorer : List α → ℕ → ℚ) : List (SearchRow α) :=
  List.insertionSort rowLE (searchRows grid k scorer)

/-- The combination reported as best: the rank-1 row of the ranked table. -/
def bestRow {α : Type} (grid : List (List α)) (k : ℕ)
    (scorer : List α → ℕ → ℚ) : Option (SearchRow α) :=
  (rankedRows grid k scorer).head?

/-- The spec's scenario grid: two imputation strategies by two indicator
flags. -/
def demoGrid : List (List String) := [["mean", "median"], ["True", "False"]]

/-- A base Pipeline seen as a tree of named stages, for nested parameter
path resolution.  A leaf is a step with its parameter names; a node is a
Pipeline/Combiner with named sub-stages.  Modelled from the spec:
"a mapping from a dotted/nested step-path identifier to a candidate value"
and the notebooks' `preprocess__num_pipe__imputer__strategy` keys. -/
inductive PNode where
  | leaf (params : List String)
  | node (children : List (String × PNode))
deriving Repr

/-- Does a nested step-path identifier resolve to an existing parameter of
the base Pipeline?  The path descends through named sub-stages; its last
segment must be a parameter of the reached step. -/
def resolves : PNode → List String → Bool
  | PNode.leaf ps, [p] => ps.contains p
  | PNode.leaf _, [] => false
  | PNode.leaf _, _ :: _ :: _ => false
  | PNode.node _, [] => false
  | PNode.node [], _ :: _ => false
  | PNode.node ((m, c) :: cs), n :: rest =>
    if m = n then resolves c rest else resolves (PNode.node cs) (n :: rest)

/-- Configuration validation: every path of the grid must resolve. -/
def validateGrid {α : Type} (t : PNode) (grid : List (List String × List α)) : Bool :=
  grid.all (fun pq => resolves t pq.1)

/-- A ParameterSearch run: validate all configured paths first and fail fast
without any fitting work when one does not resolve; otherwise evaluate the
grid.  Modelled from the spec: "a nested path that does not resolve to an
existing step/parameter fails fast before any fitting begins". -/
def gridSearchRun {α : Type} (t : PNode) (grid : List (List String × List α))
    (k : ℕ) (scorer : List α → ℕ → ℚ) : Except String (List (SearchRow α)) :=
  if validateGrid t grid then Except.ok (rankedRows (grid.map (fun pq => pq.2)) k scorer)
  else Except.error ("unresolved parameter path")

/-- The number of fit/score operations a ParameterSearch run performs:
zero when configuration validation fails. -/
def fitsPerformed {α : Type} (t : PNode) (grid : List (List String × List α))
    (k : ℕ) (scorer : List α → ℕ → ℚ) : ℕ :=
  if validateGrid t grid then totalFits (grid.map (fun pq => pq.2)) k scorer else 0

/-- A search in which evaluating a combination may fail: each combination is
evaluated in isolation and its outcome (scores or failure) recorded.
Modelled from the spec: "if any fold or combination fails, the overall search
reports failure for that combination but continues evaluating remaining
combinations (isolation boundary = one configuration point)". -/
def searchWithFailures {α : Type} (grid : List (List α))
    (evalCombo : List α → Except String (List ℚ)) :
    List (List α × Except String (List ℚ)) :=
  (cartProd grid).map (fun c => (c, evalCombo c))

/-! ## Supporting lemmas -/

theorem applyStep_nil (st : StepState) : applyStep st ([] : Table) = [] := by
  cases st with
  | imputerS fills addInd => cases addInd <;> rfl
  | scalerS means => rfl
  | encoderS cats => rfl

theorem applyChain_nil : ∀ sts : List StepState, applyChain sts ([] : Table) = []
  | [] => rfl
  | st :: sts => by rw [applyChain, applyStep_nil]; exact applyChain_nil sts

/-! ## Claims -/

/-- C1: fitting a TransformChain fits step 1 on the input, transforms the
input to produce step 2's input, fits step 2 on that output, and so on, so
each step only ever sees the output of the previous step and never the
original input; applying the fitted chain pushes data through each step's
previously learned state in the same order without re-fitting, and on the
training data itself this reproduces exactly the outputs seen at fit time. -/
theorem chain_sequential_fit_and_apply :
    (∀ (s : Step) (ss : List Step) (T : Table),
      fitChain (s :: ss) T = fitStep s T :: fitChain ss (applyStep (fitStep s T) T))
    ∧ (∀ (st : StepState) (sts : List StepState) (X : Table),
      applyChain (st :: sts) X = applyChain sts (applyStep st X))
    ∧ (∀ (steps : List Step) (T : Table),
      applyChain (fitChain steps T) T = fitTransformChain steps T) := by
  refine ⟨fun s ss T => rfl, fun st sts X => rfl, fun steps => ?_⟩
  induction steps with
  | nil => intro T; rfl
  | cons s ss ih =>
    intro T
    rw [fitChain, applyChain, fitTransformChain]
    exact ih (applyStep (fitStep s T) T)

/-- C5: transforming held-out data with a fitted TransformChain uses only
statistics learned at fit time: the learned state of a run is a function of
the training partition alone (invariant under any perturbation of the
held-out partition), no step is refit on held-out data, and in particular the
imputer's learned fill values do not depend on the held-out partition. -/
theorem fitted_chain_heldout_invariance :
    ∀ (steps : List Step) (train t₁ t₂ : Table),
      (evalRun steps train t₁).1 = (evalRun steps train t₂).1
      ∧ (evalRun steps train t₁).1 = fitChain steps train
      ∧ (evalRun steps train t₁).2 = applyChain (fitChain steps train) t₁
      ∧ ∀ (strat : Strategy) (ind : Bool) (fv : Val),
          (evalRun (Step.imputer strat ind fv :: steps) train t₁).1.head? =
            some (StepState.imputerS (train.map (fun c => fillFor strat fv c.2)) ind) :=
  fun _ _ _ _ => ⟨rfl, rfl, rfl, fun _ _ _ => rfl⟩

/-- C9: a declared column group whose column set is empty produces a branch
output with zero columns and zero contribution to the combined Table, and
fitting and transforming succeed without any error. -/
theorem empty_group_zero_columns :
    ∀ (n : String) (ch : List Step) (bs : List BranchSpec) (T : Table),
      branchCols T ⟨n, ch, []⟩ = some []
      ∧ fitTransformCombiner (⟨n, ch, []⟩ :: bs) T = fitTransformCombiner bs T := by
  intro n ch bs T
  have hb : branchCols T ⟨n, ch, []⟩ = some [] := by
    show (pickCols T []).map _ = some []
    rw [pickCols, Option.map_some']
    exact congrArg some (applyChain_nil _)
  refine ⟨hb, ?_⟩
  show combineBranches T (⟨n, ch, []⟩ :: bs) = combineBranches T bs
  rw [combineBranches, hb]
  cases combineBranches T bs <;> rfl

instance (T : Table) (r : ℕ) : Decidable (hasRowCount T r) :=
  inferInstanceAs (Decidable (∀ c ∈ T, c.2.length = r))

theorem findCol_some_mem {T : Table} {n : String} {cs : List Cell}
    (h : findCol T n = some cs) : (n, cs) ∈ T := by
  induction T with
  | nil => simp [findCol] at h
  | cons c T ih =>
    rw [findCol] at h
    by_cases hc : c.1 = n
    · rw [if_pos hc] at h
      obtain rfl : c.2 = cs := Option.some.inj h
      subst hc
      simp
    · rw [if_neg hc] at h
      exact List.mem_cons_of_mem _ (ih h)

theorem pickCols_some_mem {T : Table} {ns : List String} {Tg : Table}
    (h : pickCols T ns = some Tg) : ∀ p ∈ Tg, findCol T p.1 = some p.2 := by
  induction ns generalizing Tg with
  | nil =>
    rw [pickCols] at h
    obtain rfl : ([] : Table) = Tg := Option.some.inj h
    intro p hp
    simp at hp
  | cons n ns ih =>
    rw [pickCols] at h
    cases hf : findCol T n with
    | none => rw [hf] at h; exact absurd h (by simp)
    | some cells =>
      rw [hf] at h
      obtain ⟨rest, hrest, rfl⟩ := Option.map_eq_some'.mp h
      intro p hp
      rcases List.mem_cons.mp hp with rfl | hmem
      · exact hf
      · exact ih hrest p hmem

theorem pickCols_none {T : Table} {n : String} (hn : findCol T n = none) :
    ∀ {ns : List String}, n ∈ ns → pickCols T ns = none := by
  intro ns
  induction ns with
  | nil => intro h; simp at h
  | cons m ns ih =>
    intro hmem
    rw [pickCols]
    cases hf : findCol T m with
    | none => rfl
    | some cells =>
      rcases List.mem_cons.mp hmem with rfl | hmem'
      · simp [hf] at hn
      · show Option.map _ (pickCols T ns) = none
        rw [ih hmem']
        rfl

theorem route_some_spec {T : Table} {groups : List (String × List String)}
    {res : List (String × Table)} (h : route T groups = some res) :
    ∀ g ∈ res, ∀ p ∈ g.2, findCol T p.1 = some p.2 := by
  induction groups generalizing res with
  | nil =>
    rw [route] at h
    obtain rfl : ([] : List (String × Table)) = res := Option.some.inj h
    intro g hg
    simp at hg
  | cons gr grs ih =>
    rw [route] at h
    cases hp : pickCols T gr.2 with
    | none => rw [hp] at h; exact absurd h (by simp)
    | some Tg =>
      rw [hp] at h
      obtain ⟨rest, hrest, rfl⟩ := Option.map_eq_some'.mp h
      intro g hg
      rcases List.mem_cons.mp hg with rfl | hmem
      · exact pickCols_some_mem hp
      · exact ih hrest g hmem

theorem route_none {T : Table} {g : String × List String} {n : String}
    (hg : n ∈ g.2) (hn : findCol T n = none) :
    ∀ {groups : List (String × List String)}, g ∈ groups → route T groups = none := by
  intro groups
  induction groups with
  | nil => intro h; simp at h
  | cons gr grs ih =>
    intro hmem
    rw [route]
    rcases List.mem_cons.mp hmem with rfl | hmem'
    · rw [pickCols_none hn hg]
    · cases hp : pickCols T gr.2 with
      | none => rfl
      | some Tg =>
        show Option.map _ (route T grs) = none
        rw [ih hmem']
        rfl

/-- C6: for every Table and every mapping from group-name to column-name-set,
the ColumnRouter produces for each group the Table restricted to that group's
columns with the same row count, row order, and row identity as the input
Table (every routed column is, cell for cell, the input Table's column of
that name); and it fails whenever a referenced column name is absent. -/
theorem router_restriction_correct (T : Table) (groups : List (String × List String))
    (r : ℕ) (hrc : hasRowCount T r) :
    (∀ res, route T groups = some res →
      ∀ g ∈ res, hasRowCount g.2 r ∧ ∀ p ∈ g.2, findCol T p.1 = some p.2)
    ∧ (∀ g ∈ groups, ∀ n ∈ g.2, findCol T n = none → route T groups = none) := by
  constructor
  · intro res hres g hg
    refine ⟨?_, route_some_spec hres g hg⟩
    intro p hp
    exact hrc _ (findCol_some_mem (route_some_spec hres g hg p hp))
  · intro g hg n hn habs
    exact route_none hn habs hg

/-- Witness for C6 at a concrete Table and group mapping: the routed group
table keeps the input's row count and its column is, cell for cell, the
input's column of that name. -/
theorem router_restriction_correct_witness :
    hasRowCount [("a", [some (Val.num 1), none])] 2
    ∧ findCol [("a", [some (Val.num 1), none]), ("b", [some (Val.cat "x"), some (Val.num 2)])]
        "a" = some [some (Val.num 1), none] := by
  have app := router_restriction_correct
    [("a", [some (Val.num 1), none]), ("b", [some (Val.cat "x"), some (Val.num 2)])]
    [("g1", ["a"])] 2 (by decide)
  have h := app.1 [("g1", [("a", [some (Val.num 1), none])])] (by decide)
    ("g1", [("a", [some (Val.num 1), none])]) (by decide)
  exact ⟨h.1, h.2 ("a", [some (Val.num 1), none]) (by decide)⟩

theorem pickCols_congr {T T' : Table} {ns : List String}
    (h : ∀ n ∈ ns, findCol T n = findCol T' n) : pickCols T ns = pickCols T' ns := by
  induction ns with
  | nil => rfl
  | cons n ns ih =>
    rw [pickCols, pickCols, h n (List.mem_cons_self n ns),
      ih (fun m hm => h m (List.mem_cons_of_mem n hm))]

theorem branchCols_congr {T T' : Table} {b : BranchSpec}
    (h : ∀ n ∈ b.cols, findCol T n = findCol T' n) : branchCols T b = branchCols T' b := by
  rw [branchCols, branchCols, pickCols_congr h]

theorem combineBranches_eq_flatMap {T : Table} {bs : List BranchSpec}
    (h : ∀ b ∈ bs, (branchCols T b).isSome) :
    combineBranches T bs = some (bs.flatMap (fun b => (branchCols T b).getD [])) := by
  induction bs with
  | nil => rfl
  | cons b bs ih =>
    obtain ⟨out, hout⟩ := Option.isSome_iff_exists.mp (h b (List.mem_cons_self b bs))
    rw [combineBranches, hout, ih (fun bb hbb => h bb (List.mem_cons_of_mem b hbb))]
    show some (out ++ _) = _
    simp [hout]

theorem combineBranches_length {T : Table} {bs : List BranchSpec} {U : Table}
    (h : combineBranches T bs = some U) :
    U.length = (bs.map (fun b => ((branchCols T b).getD []).length)).sum := by
  induction bs generalizing U with
  | nil =>
    rw [combineBranches] at h
    obtain rfl : ([] : Table) = U := Option.some.inj h
    rfl
  | cons b bs ih =>
    rw [combineBranches] at h
    cases hb : branchCols T b with
    | none => rw [hb] at h; exact absurd h (by simp)
    | some out =>
      rw [hb] at h
      obtain ⟨rest, hrest, rfl⟩ := Option.map_eq_some'.mp h
      simp [hb, ih hrest]

/-- C2: for every Combiner built from named (group, TransformChain) pairs and
every input table, each chain is fit independently on only its own group's
columns (its fitted state is unchanged when the table is perturbed anywhere
outside that group), the combined output is the concatenation of each chain's
output columns in the declaration order of the groups, the combined output
column count equals the sum of the branches' output column counts, and
permuting the declared group order permutes output column order but changes
neither the output column count nor the cell values (the outputs are
permutations of each other, as lists of named columns). -/
theorem combiner_contract (bs bs' : List BranchSpec) (T T' : Table) (b : BranchSpec)
    (hagree : ∀ n ∈ b.cols, findCol T n = findCol T' n)
    (hperm : bs.Perm bs')
    (hsome : ∀ bb ∈ bs, (branchCols T bb).isSome) :
    branchState T b = branchState T' b
    ∧ fitTransformCombiner bs T = some (bs.flatMap (fun bb => (branchCols T bb).getD []))
    ∧ (∀ U, fitTransformCombiner bs T = some U →
        U.length = (bs.map (fun bb => ((branchCols T bb).getD []).length)).sum)
    ∧ (∀ U U', fitTransformCombiner bs T = some U →
        fitTransformCombiner bs' T = some U' → U.Perm U') := by
  refine ⟨?_, combineBranches_eq_flatMap hsome,
    fun U hU => combineBranches_length hU, fun U U' hU hU' => ?_⟩
  · rw [branchState, branchState, pickCols_congr hagree]
  · have hsome' : ∀ bb ∈ bs', (branchCols T bb).isSome :=
      fun bb hbb => hsome bb (hperm.mem_iff.mpr hbb)
    have e : fitTransformCombiner bs T =
        some (bs.flatMap (fun bb => (branchCols T bb).getD [])) :=
      combineBranches_eq_flatMap hsome
    have e' : fitTransformCombiner bs' T =
        some (bs'.flatMap (fun bb => (branchCols T bb).getD [])) :=
      combineBranches_eq_flatMap hsome'
    obtain rfl : U = bs.flatMap (fun bb => (branchCols T bb).getD []) :=
      Option.some.inj ((hU.symm.trans e))
    obtain rfl : U' = bs'.flatMap (fun bb => (branchCols T bb).getD []) :=
      Option.some.inj ((hU'.symm.trans e'))
    exact hperm.flatMap_right _

/-- Concrete data for the Combiner witnesses: a table with a numeric column
`a`, a categorical column `b`, and an extra column routed to no group. -/
def wT : Table :=
  [("a", [some (Val.num 1), none]),
   ("b", [some (Val.cat "x"), none]),
   ("extra", [some (Val.num 5), some (Val.num 6)])]

/-- The same table without the unrouted extra column. -/
def wT' : Table :=
  [("a", [some (Val.num 1), none]),
   ("b", [some (Val.cat "x"), none])]

/-- A numeric branch: mean imputation on column `a`. -/
def wNum : BranchSpec := ⟨"num", [Step.imputer Strategy.mean false (Val.num 0)], ["a"]⟩

/-- A categorical branch: most-frequent imputation on column `b`. -/
def wCat : BranchSpec := ⟨"cat", [Step.imputer Strategy.mostFrequent false (Val.cat "m")], ["b"]⟩

/-- Witness for C2 at a concrete Combiner and Table. -/
theorem combiner_contract_witness :
    branchState wT wNum = branchState wT' wNum
    ∧ fitTransformCombiner [wNum, wCat] wT =
        some ([wNum, wCat].flatMap (fun bb => (branchCols wT bb).getD [])) :=
  ⟨(combiner_contract [wNum, wCat] [wCat, wNum] wT wT' wNum
      (by decide) (by decide) (by decide)).1,
   (combiner_contract [wNum, wCat] [wCat, wNum] wT wT' wNum
      (by decide) (by decide) (by decide)).2.1⟩

/-- C10: any input column that is not listed in any declared column group is
silently dropped: the Combiner's output is unchanged under any perturbation
of the table outside the routed columns (so an unrouted column influences
nothing), and every output column is produced by one of the declared chains. -/
theorem combiner_drops_unrouted (bs : List BranchSpec) (T T' : Table)
    (hagree : ∀ bb ∈ bs, ∀ n ∈ bb.cols, findCol T n = findCol T' n) :
    fitTransformCombiner bs T = fitTransformCombiner bs T'
    ∧ (∀ U, fitTransformCombiner bs T = some U →
        ∀ c ∈ U, ∃ bb ∈ bs, ∃ out, branchCols T bb = some out ∧ c ∈ out) := by
  constructor
  · show combineBranches T bs = combineBranches T' bs
    induction bs with
    | nil => rfl
    | cons b bs ih =>
      rw [combineBranches, combineBranches,
        branchCols_congr (hagree b (List.mem_cons_self b bs)),
        ih (fun bb hbb => hagree bb (List.mem_cons_of_mem b hbb))]
  · clear hagree
    induction bs with
    | nil =>
      intro U hU c hc
      rw [fitTransformCombiner, combineBranches] at hU
      obtain rfl : ([] : Table) = U := Option.some.inj hU
      simp at hc
    | cons b bs ih =>
      intro U hU c hc
      rw [fitTransformCombiner, combineBranches] at hU
      cases hb : branchCols T b with
      | none => rw [hb] at hU; exact absurd hU (by simp)
      | some out =>
        rw [hb] at hU
        obtain ⟨rest, hrest, rfl⟩ := Option.map_eq_some'.mp hU
        rcases List.mem_append.mp hc with hout | hrestmem
        · exact ⟨b, List.mem_cons_self b bs, out, hb, hout⟩
        · obtain ⟨bb, hbb, o, ho, hco⟩ := ih rest hrest c hrestmem
          exact ⟨bb, List.mem_cons_of_mem b hbb, o, ho, hco⟩

/-- Witness for C10: the Combiner output over a table with an unrouted extra
column equals the output over the same table without it. -/
theorem combiner_drops_unrouted_witness :
    fitTransformCombiner [wNum, wCat] wT = fitTransformCombiner [wNum, wCat] wT' :=
  (combiner_drops_unrouted [wNum, wCat] wT wT' (by decide)).1

theorem cartProd_length {α : Type} : ∀ ls : List (List α),
    (cartProd ls).length = (ls.map List.length).prod := by
  intro ls
  induction ls with
  | nil => rfl
  | cons vs rest ih =>
    rw [cartProd, List.length_flatMap]
    have hmap : vs.map (List.length ∘ fun v => (cartProd rest).map (fun c => v :: c)) =
        vs.map (fun _ => (cartProd rest).length) :=
      List.map_congr_left (fun v _ => by simp)
    rw [hmap, List.map_const', List.sum_replicate, smul_eq_mul, ih,
      List.map_cons, List.prod_cons]

theorem cvScores_length {α : Type} (k : ℕ) (scorer : List α → ℕ → ℚ) (c : List α) :
    (cvScores k scorer c).length = k := by
  simp [cvScores]

theorem totalFits_eq {α : Type} (grid : List (List α)) (k : ℕ)
    (scorer : List α → ℕ → ℚ) : totalFits grid k scorer = (cartProd grid).length * k := by
  unfold totalFits
  have : (cartProd grid).map (fun c => (cvScores k scorer c).length) =
      (cartProd grid).map (fun _ => k) := List.map_congr_left (fun c _ => cvScores_length k scorer c)
  rw [this, List.map_const', List.sum_replicate, smul_eq_mul]

/-- C4: for every parameter grid whose candidate value lists have sizes
`n1, ..., nm` and every fold count `k`, the search enumerates exactly
`n1 × ... × nm` combinations (the Cartesian product) and performs exactly
`n1 × ... × nm × k` fit/score operations; in particular the spec's scenario
grid of two strategies by two indicator flags with `k = 5` performs exactly
20 fit operations and yields a ranked table of exactly 4 rows. -/
theorem search_cost_is_product :
    (∀ (α : Type) (ls : List (List α)) (k : ℕ) (scorer : List α → ℕ → ℚ),
      (cartProd ls).length = (ls.map List.length).prod
      ∧ totalFits ls k scorer = (ls.map List.length).prod * k)
    ∧ (∀ scorer : List String → ℕ → ℚ,
      (cartProd demoGrid).length = 4
      ∧ totalFits demoGrid 5 scorer = 20
      ∧ (rankedRows demoGrid 5 scorer).length = 4) := by
  constructor
  · intro α ls k scorer
    exact ⟨cartProd_length ls, by rw [totalFits_eq, cartProd_length]⟩
  · intro scorer
    refine ⟨rfl, by rw [totalFits_eq]; rfl, ?_⟩
    rw [rankedRows, List.length_insertionSort, searchRows, List.length_map,
      List.enum_length]
    rfl

/-- C3: after a ParameterSearch completes, the rows of the ranked result
table are ordered by mean cross-validation score descending with ties broken
by combination enumeration order (the table is sorted by `rowLE` and is a
permutation of the enumeration-ordered rows, i.e. a stable sort); the rank-1
row is reported as best, and its mean score is greater than or equal to every
other row's mean score. -/
theorem search_best_is_max {α : Type} (grid : List (List α)) (k : ℕ)
    (scorer : List α → ℕ → ℚ) (b : SearchRow α)
    (hb : bestRow grid k scorer = some b) :
    List.Sorted rowLE (rankedRows grid k scorer)
    ∧ (rankedRows grid k scorer).Perm (searchRows grid k scorer)
    ∧ (rankedRows grid k scorer).head? = some b
    ∧ ∀ r ∈ rankedRows grid k scorer, r.mean ≤ b.mean := by
  have hsorted : List.Sorted rowLE (rankedRows grid k scorer) :=
    List.sorted_insertionSort rowLE _
  refine ⟨hsorted, List.perm_insertionSort rowLE _, hb, ?_⟩
  cases hl : rankedRows grid k scorer with
  | nil => rw [bestRow, hl] at hb; exact absurd hb (by simp)
  | cons hd t =>
    rw [bestRow, hl] at hb
    obtain rfl : hd = b := Option.some.inj hb
    rw [hl] at hsorted
    intro r hr
    rcases List.mem_cons.mp hr with rfl | hrt
    · exact le_refl _
    · rcases (List.sorted_cons.mp hsorted).1 r hrt with hlt | ⟨heq, _⟩
      · exact le_of_lt hlt
      · exact le_of_eq heq.symm

/-- Witness for C3 at a concrete two-combination grid. -/
theorem search_best_is_max_witness :
    List.Sorted rowLE (rankedRows [[1, 2]] 1 (fun _ _ => (0 : ℚ)))
    ∧ (rankedRows [[1, 2]] 1 (fun _ _ => (0 : ℚ))).Perm
        (searchRows [[1, 2]] 1 (fun _ _ => (0 : ℚ)))
    ∧ (rankedRows [[1, 2]] 1 (fun _ _ => (0 : ℚ))).head? = some ⟨0, [1], [0], 0⟩ := by
  have app := search_best_is_max [[1, 2]] 1 (fun _ _ => (0 : ℚ)) ⟨0, [1], [0], 0⟩ (by
    have hm : meanList [(0 : ℚ)] = 0 := by simp [meanList]
    simp [bestRow, rankedRows, searchRows, cartProd, mkRow, cvScores, hm,
      List.insertionSort, List.orderedInsert, rowLE, List.enum, List.enumFrom,
      List.range_succ])
  exact ⟨app.1, app.2.1, app.2.2.1⟩

/-- C7: for every ParameterSearch whose grid contains a nested step-path
identifier that does not resolve to an existing step or parameter of the base
Pipeline, the search fails before any fitting work is performed: the run
reports a configuration error and the number of fit/score operations
performed is zero. -/
theorem search_fails_fast_on_bad_path {α : Type} (t : PNode)
    (grid : List (List String × List α)) (k : ℕ) (scorer : List α → ℕ → ℚ)
    (pq : List String × List α) (hmem : pq ∈ grid)
    (hbad : resolves t pq.1 = false) :
    gridSearchRun t grid k scorer = Except.error ("unresolved parameter path")
    ∧ fitsPerformed t grid k scorer = 0 := by
  have hval : validateGrid t grid = false := by
    rw [validateGrid]
    by_contra h
    have := List.all_eq_true.mp (Bool.of_not_eq_false h) pq hmem
    rw [hbad] at this
    exact Bool.false_ne_true this
  rw [gridSearchRun, fitsPerformed, hval]
  exact ⟨rfl, rfl⟩

/-- A small concrete Pipeline tree mirroring the notebook's nesting:
`preprocess` contains `num_pipe` which contains `imputer`. -/
def wTree : PNode :=
  PNode.node
    [("preprocess",
      PNode.node
        [("num_pipe", PNode.node [("imputer", PNode.leaf ["strategy", "add_indicator"])])]),
     ("lasso", PNode.leaf ["alpha"])]

/-- Witness for C7: a grid with one resolving and one non-resolving path. -/
theorem search_fails_fast_on_bad_path_witness :
    gridSearchRun wTree
        [(["preprocess", "num_pipe", "imputer", "strategy"], ["mean"]),
         (["preprocess", "typo", "strategy"], ["mean"])] 5 (fun _ _ => (0 : ℚ)) =
      Except.error ("unresolved parameter path")
    ∧ fitsPerformed wTree
        [(["preprocess", "num_pipe", "imputer", "strategy"], ["mean"]),
         (["preprocess", "typo", "strategy"], ["mean"])] 5 (fun _ _ => (0 : ℚ)) = 0 :=
  search_fails_fast_on_bad_path wTree
    [(["preprocess", "num_pipe", "imputer", "strategy"], ["mean"]),
     (["preprocess", "typo", "strategy"], ["mean"])] 5 (fun _ _ => (0 : ℚ))
    (["preprocess", "typo", "strategy"], ["mean"])
    (by decide) (by simp [resolves, wTree])

/-- C8: in a search where fitting a combination may fail, every grid
combination gets exactly one recorded outcome (the result list is indexed
exactly like the enumerated combinations), the outcome recorded for a
combination is that combination's own evaluation, and a failure of one
combination does not change any other combination's entry: two evaluators
that agree everywhere except at a failing combination `c₀` produce identical
entries at every position not holding `c₀`. -/
theorem search_failure_isolation {α : Type} (grid : List (List α))
    (ev ev' : List α → Except String (List ℚ)) (c₀ : List α)
    (hagree : ∀ c, c ≠ c₀ → ev c = ev' c) :
    (searchWithFailures grid ev).length = (cartProd grid).length
    ∧ (∀ i : ℕ, (searchWithFailures grid ev)[i]? =
        ((cartProd grid)[i]?).map (fun c => (c, ev c)))
    ∧ (∀ i : ℕ, (cartProd grid)[i]? ≠ some c₀ →
        (searchWithFailures grid ev)[i]? = (searchWithFailures grid ev')[i]?) := by
  refine ⟨by rw [searchWithFailures, List.length_map],
    fun i => by rw [searchWithFailures, List.getElem?_map], fun i hi => ?_⟩
  rw [searchWithFailures, searchWithFailures, List.getElem?_map, List.getElem?_map]
  cases hc : (cartProd grid)[i]? with
  | none => rfl
  | some c =>
    rw [hc] at hi
    have hne : c ≠ c₀ := fun h => hi (by rw [h])
    simp [hagree c hne]

/-- A concrete evaluator for the C8 witness: the first combination fails,
the other succeeds. -/
def wEv (c : List ℕ) : Except String (List ℚ) :=
  if c = [1] then Except.error ("fold failed") else Except.ok [0]

/-- Witness for C8: an evaluator failing at one combination, compared with
itself away from that combination. -/
theorem search_failure_isolation_witness :
    (searchWithFailures [[1, 2]] wEv).length = (cartProd [[1, 2]]).length
    ∧ (searchWithFailures [[1, 2]] wEv)[0]? =
        ((cartProd [[1, 2]])[0]?).map (fun c => (c, wEv c))
    ∧ (searchWithFailures [[1, 2]] wEv)[1]? = (searchWithFailures [[1, 2]] wEv)[1]? := by
  have app := search_failure_isolation [[1, 2]] wEv wEv [1] (fun _ _ => rfl)
  exact ⟨app.1, app.2.1 0, app.2.2 1 (by decide)⟩

end FeatPipe
